import Mathlib

/-!
Verification of the Pictropy image-entropy analyzer
(src/pictropy/src/main.rs and src/webptesy.rs) against its
natural-language specification. The byte-level pipeline functions
`calculate_entropy`, `split_rgb_channels` and `ppm_compress` are embedded
shallowly below; the Reconciler logic inlined in `main` is embedded as the
function `reconcile`. `f64` arithmetic of the source is modelled by exact
real (respectively rational) arithmetic.
-/

namespace Pictropy

/-- A byte value 0..255, the sample type of a channel buffer. -/
abbrev Byte := Fin 256

/-! ## Entropy Estimator: `calculate_entropy`, src/pictropy/src/main.rs lines 19-34 -/

/-- Shallow embedding of `calculate_entropy`: build the histogram of byte
values (the count of `b` in `data` is `data.count b`); for each value
present in the histogram add `-p * log2 p` with `p = count / total_pixels`
and `total_pixels = data.length`; values absent from the histogram (count
zero) contribute nothing. -/
noncomputable def calculate_entropy (data : List Byte) : ℝ :=
  ∑ b : Byte,
    if data.count b = 0 then 0
    else -((data.count b : ℝ) / (data.length : ℝ)) *
      Real.logb 2 ((data.count b : ℝ) / (data.length : ℝ))

/-! ## Channel Splitter: `split_rgb_channels`, src/pictropy/src/main.rs lines 37-51 -/

/-- One decoded pixel: red, green, blue and alpha samples, as yielded by
`img.pixels()` in scan order. -/
structure Pixel where
  r : Byte
  g : Byte
  b : Byte
  a : Byte

/-- Shallow embedding of `split_rgb_channels`: iterate over the pixels in
scan order, pushing the red, green and blue samples of each pixel onto the
corresponding channel buffer; the alpha sample is discarded. -/
def split_rgb_channels (pixels : List Pixel) : List Byte × List Byte × List Byte :=
  pixels.foldl (fun acc p => (acc.1 ++ [p.r], acc.2.1 ++ [p.g], acc.2.2 ++ [p.b]))
    ([], [], [])

/-! ## Context-Model Size Predictor: `ppm_compress`, src/pictropy/src/main.rs lines 54-70 -/

/-- The adaptive context table `context_map`: a context (the up-to-3
immediately preceding bytes) maps to the per-next-byte occurrence counts of
its inner frequency map; entries absent from the maps are count 0. -/
abbrev ContextMap := List Byte → Byte → Nat

/-- The sum `context_freq.values().sum()` of the counts stored under one
context. Entries absent from the inner map are 0 and contribute nothing,
so summing the count function over all 256 byte values is faithful. -/
def totalFreq (m : ContextMap) (ctx : List Byte) : Nat :=
  ∑ b : Byte, m ctx b

/-- The per-symbol cost `prob.log2().abs().ceil() as usize` of the source,
in exact arithmetic: for `1 ≤ count ≤ total` and `prob = count/total` we
have `⌈|log2 prob|⌉ = ⌈log2 (total/count)⌉ = Nat.clog 2 ⌈total/count⌉`,
and on naturals `⌈total/count⌉ = (total + count - 1) / count`. -/
def symCost (count total : Nat) : Nat :=
  Nat.clog 2 ((total + count - 1) / count)

/-- State of one `ppm_compress` pass: the context table and the
accumulated `compressed_size`. -/
structure PpmState where
  map : ContextMap
  cost : Nat

/-- Initial state: empty `context_map`, `compressed_size = 0`. -/
def ppmInit : PpmState := ⟨fun _ _ => 0, 0⟩

/-- The context slice `image_data[i.saturating_sub(3)..i]`: the last
up-to-3 bytes of the already-processed prefix `prev` (natural subtraction
saturates exactly as `saturating_sub` does). -/
def ctxTail (prev : List Byte) : List Byte :=
  prev.drop (prev.length - 3)

/-- One iteration of the `ppm_compress` loop, in the source's order: the
count of `value` under `ctx` is incremented FIRST (line 61), and only then
are `total_freq` and the probability read from the updated table and the
per-symbol cost accumulated (lines 63-66). -/
def ppmStep (s : PpmState) (ctx : List Byte) (value : Byte) : PpmState :=
  let m : ContextMap := fun c b => if c = ctx ∧ b = value then s.map c b + 1 else s.map c b
  { map := m, cost := s.cost + symCost (m ctx value) (totalFreq m ctx) }

/-- The `ppm_compress` loop: `prev` is the prefix already processed, so
the context of the next byte is `ctxTail prev`. -/
def ppmGo (s : PpmState) (prev rest : List Byte) : PpmState :=
  match rest with
  | [] => s
  | v :: vs => ppmGo (ppmStep s (ctxTail prev) v) (prev ++ [v]) vs

/-- Shallow embedding of `ppm_compress`: run the loop from the initial
state over the whole input and return the accumulated size. -/
def ppm_compress (data : List Byte) : Nat :=
  (ppmGo ppmInit [] data).cost

/-- The denominators `total_freq` used by `ppm_compress`, one per input
position, mirroring the loop of `ppmGo`. -/
def ppmGoDenoms (s : PpmState) (prev rest : List Byte) : List Nat :=
  match rest with
  | [] => []
  | v :: vs =>
      totalFreq (ppmStep s (ctxTail prev) v).map (ctxTail prev) ::
        ppmGoDenoms (ppmStep s (ctxTail prev) v) (prev ++ [v]) vs

/-- All denominators of the divisions performed by `ppm_compress data`. -/
def ppmDenoms (data : List Byte) : List Nat :=
  ppmGoDenoms ppmInit [] data

/-- Per-symbol cost as claim C1 states it (NOT as the source computes it):
`count` and `total` taken BEFORE the increment of the current symbol's
count; when `total = 0` a fixed maximum escape cost of 8 bits; otherwise
`⌈|log2 (count/total)|⌉` (left at 0 when `count = 0`, a case the claim
asserts cannot otherwise matter). -/
def symCostSpecC1 (count total : Nat) : Nat :=
  if total = 0 then 8
  else if count = 0 then 0
  else Nat.clog 2 ((total + count - 1) / count)

/-- One loop iteration under claim C1's reading: cost from the
pre-increment counts, increment afterwards. -/
def ppmStepSpecC1 (s : PpmState) (ctx : List Byte) (value : Byte) : PpmState :=
  { map := fun c b => if c = ctx ∧ b = value then s.map c b + 1 else s.map c b,
    cost := s.cost + symCostSpecC1 (s.map ctx value) (totalFreq s.map ctx) }

/-- The loop under claim C1's reading. -/
def ppmGoSpecC1 (s : PpmState) (prev rest : List Byte) : PpmState :=
  match rest with
  | [] => s
  | v :: vs => ppmGoSpecC1 (ppmStepSpecC1 s (ctxTail prev) v) (prev ++ [v]) vs

/-- The Context-Model Size Predictor as claim C1 describes it: probability
from the pre-increment counts, fixed 8-bit escape when the pre-increment
total is 0, increment only after the cost is accumulated. -/
def ppm_compress_specC1 (data : List Byte) : Nat :=
  (ppmGoSpecC1 ppmInit [] data).cost

/-! ## Run-Length Size Simulator (spec sections 2, 4.3, 8) -/

/-- Number of maximal runs of equal consecutive bytes in a sequence. -/
def runCount : List Byte → Nat
  | [] => 0
  | [_] => 1
  | a :: b :: rest => (if a = b then 0 else 1) + runCount (b :: rest)

/-- Modelled from the spec: the Run-Length Size Simulator is described in
spec sections 2, 4.3 and 8, but no implementation of it exists under
`src/` (the second source file replaces it with a WebP encoder call).
Following the spec's words: it must fail explicitly on the empty sequence
(`none` here), and otherwise walks the sequence grouping maximal runs of
equal consecutive bytes, each run contributing two output units (value,
length) regardless of run length — length counters are not clamped. -/
def rle_size (data : List Byte) : Option Nat :=
  match data with
  | [] => none
  | _ :: _ => some (2 * runCount data)

/-! ## Reconciler: inlined in `main`, src/pictropy/src/main.rs lines 170-194 -/

/-- The values the Reconciler hands to the presenter: the (possibly
clamped) theoretical minimum size, the compression percentage, and whether
the advisory "model not effective" message replaced the numeric claim. -/
structure AnalysisResult where
  theoretical_size : ℚ
  compression_percentage : ℚ
  modelNotEffective : Bool

/-- Shallow embedding of the Reconciler logic of `main` (lines 170-194):
`raw = total_entropy * total_pixels / 8`; if `raw` exceeds the file size,
the theoretical size is clamped to the file size and the advisory message
replaces the numeric claim (line 177-182); the compression percentage is
then computed from the POST-clamp theoretical size, re-testing it against
the file size (lines 190-194). -/
def reconcile (redE greenE blueE pixels fileSize : ℚ) : AnalysisResult :=
  let totalE := redE + greenE + blueE
  let raw := totalE * pixels / 8
  let theo := if fileSize < raw then fileSize else raw
  let pct : ℚ := if fileSize < theo then 0 else (1 - theo / fileSize) * 100
  { theoretical_size := theo
    compression_percentage := pct
    modelNotEffective := decide (fileSize < raw) }

/-! ## Helper lemmas about the Context-Model Size Predictor -/

theorem ppmInit_map_apply (ctx : List Byte) (b : Byte) : ppmInit.map ctx b = 0 := rfl

theorem ppmInit_cost : ppmInit.cost = 0 := rfl

theorem totalFreq_ppmInit (ctx : List Byte) : totalFreq ppmInit.map ctx = 0 :=
  Finset.sum_eq_zero fun _ _ => rfl

theorem ppmStep_map_apply (s : PpmState) (ctx : List Byte) (value : Byte)
    (c : List Byte) (b : Byte) :
    (ppmStep s ctx value).map c b = s.map c b + if c = ctx ∧ b = value then 1 else 0 := by
  simp only [ppmStep]
  split <;> simp

theorem totalFreq_ppmStep (s : PpmState) (ctx : List Byte) (value : Byte)
    (c : List Byte) :
    totalFreq (ppmStep s ctx value).map c =
      totalFreq s.map c + if c = ctx then 1 else 0 := by
  unfold totalFreq
  rw [Finset.sum_congr rfl fun b _ => ppmStep_map_apply s ctx value c b,
    Finset.sum_add_distrib]
  by_cases h : c = ctx
  · subst h
    simp [Finset.sum_ite_eq']
  · simp [h]

theorem ppmStep_cost_eq (s : PpmState) (ctx : List Byte) (value : Byte) :
    (ppmStep s ctx value).cost =
      s.cost + symCost (s.map ctx value + 1) (totalFreq s.map ctx + 1) := by
  have hm : (ppmStep s ctx value).map ctx value = s.map ctx value + 1 := by
    rw [ppmStep_map_apply]
    simp
  have ht : totalFreq (ppmStep s ctx value).map ctx = totalFreq s.map ctx + 1 := by
    rw [totalFreq_ppmStep]
    simp
  calc (ppmStep s ctx value).cost
      = s.cost + symCost ((ppmStep s ctx value).map ctx value)
          (totalFreq (ppmStep s ctx value).map ctx) := rfl
    _ = s.cost + symCost (s.map ctx value + 1) (totalFreq s.map ctx + 1) := by rw [hm, ht]

theorem ppmGo_nil (s : PpmState) (prev : List Byte) : ppmGo s prev [] = s := rfl

theorem ppmGo_cons (s : PpmState) (prev : List Byte) (v : Byte) (vs : List Byte) :
    ppmGo s prev (v :: vs) = ppmGo (ppmStep s (ctxTail prev) v) (prev ++ [v]) vs := rfl

theorem ppmGo_append (l₁ l₂ : List Byte) :
    ∀ (s : PpmState) (prev : List Byte),
      ppmGo s prev (l₁ ++ l₂) = ppmGo (ppmGo s prev l₁) (prev ++ l₁) l₂ := by
  induction l₁ with
  | nil =>
    intro s prev
    simp [ppmGo]
  | cons v vs ih =>
    intro s prev
    simp only [List.cons_append, ppmGo_cons]
    rw [ih]
    simp

theorem ppmGo_cost_le (rest : List Byte) :
    ∀ (s : PpmState) (prev : List Byte), s.cost ≤ (ppmGo s prev rest).cost := by
  induction rest with
  | nil =>
    intro s prev
    exact le_refl _
  | cons v vs ih =>
    intro s prev
    rw [ppmGo_cons]
    refine le_trans ?_ (ih (ppmStep s (ctxTail prev) v) (prev ++ [v]))
    rw [ppmStep_cost_eq]
    exact Nat.le_add_right _ _

theorem count_le_totalFreq (m : ContextMap) (ctx : List Byte) (b : Byte) :
    m ctx b ≤ totalFreq m ctx :=
  Finset.single_le_sum (fun _ _ => Nat.zero_le _) (Finset.mem_univ b)

theorem symCost_one_one : symCost 1 1 = 0 := by
  simp [symCost]

theorem ppmStepSpecC1_cost_eq (s : PpmState) (ctx : List Byte) (value : Byte) :
    (ppmStepSpecC1 s ctx value).cost =
      s.cost + symCostSpecC1 (s.map ctx value) (totalFreq s.map ctx) := rfl

theorem ppmGoSpecC1_cons (s : PpmState) (prev : List Byte) (v : Byte) (vs : List Byte) :
    ppmGoSpecC1 s prev (v :: vs) =
      ppmGoSpecC1 (ppmStepSpecC1 s (ctxTail prev) v) (prev ++ [v]) vs := rfl

/-! ## Claim C10 -/

/-- C10: on the empty byte sequence, `ppm_compress` signals no error (it is a
total function into `Nat`) and returns a predicted size of exactly 0: the
loop body never runs and the accumulated `compressed_size` stays 0. -/
theorem ppm_compress_empty_eq_zero : ppm_compress ([] : List Byte) = 0 := rfl

/-! ## Claim C8 -/

/-- C8: the accumulated cost of `ppm_compress` is monotonically
non-decreasing as symbols are appended: for every byte sequence `data` and
byte `v`, the cost of `data ++ [v]` is at least the cost of `data`. The
pass is left-to-right, so the first `data.length` iterations coincide and
the final symbol only adds a non-negative per-symbol cost. -/
theorem ppm_compress_monotone_append (data : List Byte) (v : Byte) :
    ppm_compress data ≤ ppm_compress (data ++ [v]) := by
  unfold ppm_compress
  rw [ppmGo_append data [v] ppmInit [], ppmGo_cons, ppmGo_nil, ppmStep_cost_eq]
  exact Nat.le_add_right _ _

/-! ## Claim C1 (corrected) -/

/-- C1 counterexample: the claim asserts that `ppm_compress` takes `count`
and `total` from the per-context frequency mapping BEFORE incrementing the
current symbol's count, charging a fixed 8-bit escape when the
pre-increment `total` is 0. On the one-byte input `[0]`, the pre-increment
total of the empty context is 0, so the claimed behaviour
(`ppm_compress_specC1`) charges 8 bits — but the source increments the
count first (line 61) and only then reads `count` and `total` (lines
63-64), obtaining probability 1 and charging 0 bits. -/
theorem ppm_compress_pre_increment_counterexample :
    ppm_compress [(0 : Byte)] = 0 ∧ ppm_compress_specC1 [(0 : Byte)] = 8 := by
  constructor
  · show (ppmGo ppmInit [] [0]).cost = 0
    rw [ppmGo_cons, ppmGo_nil, ppmStep_cost_eq, totalFreq_ppmInit, ppmInit_map_apply]
    simp [ppmInit_cost, symCost_one_one]
  · show (ppmGoSpecC1 ppmInit [] [0]).cost = 8
    rw [ppmGoSpecC1_cons]
    show (ppmStepSpecC1 ppmInit (ctxTail []) 0).cost = 8
    rw [ppmStepSpecC1_cost_eq, totalFreq_ppmInit, ppmInit_map_apply]
    rfl

/-- C1 amended: `ppm_compress` computes the coding probability of a symbol
as `count/total` where both are taken from the per-context frequency
mapping AFTER the current symbol's count is incremented (the increment
happens before the cost is accumulated, not after). Consequently `total` is
never 0 at the division, and on the first occurrence of a context
(pre-increment total 0) the symbol is charged 0 bits (probability 1), not a
fixed 8-bit escape. Formally: appending `v` to `data` adds exactly
`symCost (count + 1) (total + 1)` to the cost, where `count` and `total`
are the pre-increment values held by the adaptive table after processing
`data`; when that pre-increment `total` is 0, the added cost is 0. -/
theorem ppm_compress_post_increment_cost (data : List Byte) (v : Byte) :
    ppm_compress (data ++ [v]) =
      ppm_compress data +
        symCost ((ppmGo ppmInit [] data).map (ctxTail data) v + 1)
          (totalFreq (ppmGo ppmInit [] data).map (ctxTail data) + 1) ∧
    (totalFreq (ppmGo ppmInit [] data).map (ctxTail data) = 0 →
      ppm_compress (data ++ [v]) = ppm_compress data) := by
  have key : ppm_compress (data ++ [v]) =
      ppm_compress data +
        symCost ((ppmGo ppmInit [] data).map (ctxTail data) v + 1)
          (totalFreq (ppmGo ppmInit [] data).map (ctxTail data) + 1) := by
    unfold ppm_compress
    rw [ppmGo_append data [v] ppmInit [], ppmGo_cons, ppmGo_nil, ppmStep_cost_eq]
    simp
  refine ⟨key, fun h0 => ?_⟩
  have hc : (ppmGo ppmInit [] data).map (ctxTail data) v = 0 :=
    Nat.le_zero.mp (le_of_le_of_eq (count_le_totalFreq _ _ _) h0)
  rw [key, h0, hc]
  simpa using symCost_one_one

/-- Witness for the amended C1 theorem at `data = []`, `v = 0`: the empty
context is fresh (pre-increment total 0), and appending the first byte
leaves the accumulated cost at 0. -/
theorem ppm_compress_post_increment_cost_witness :
    totalFreq (ppmGo ppmInit [] []).map (ctxTail []) = 0 ∧
      ppm_compress ([] ++ [(0 : Byte)]) = ppm_compress [] := by
  have h0 : totalFreq (ppmGo ppmInit [] []).map (ctxTail []) = 0 := totalFreq_ppmInit _
  exact ⟨h0, (ppm_compress_post_increment_cost [] 0).2 h0⟩

/-! ## Claim C3 (corrected) -/

/-- C3 counterexample: the claim asserts a strictly positive accumulated
cost for every non-empty input. On the non-empty all-equal input
`[0, 0, 0, 0]` every position is the first occurrence of its context, so
every symbol has probability 1 and the returned cost is 0, not positive. -/
theorem ppm_compress_not_strictly_positive :
    List.replicate 4 (0 : Byte) ≠ [] ∧ ppm_compress (List.replicate 4 (0 : Byte)) = 0 := by
  refine ⟨by simp, ?_⟩
  show (ppmGo ppmInit [] [0, 0, 0, 0]).cost = 0
  rw [ppmGo_cons, ppmGo_cons, ppmGo_cons, ppmGo_cons, ppmGo_nil]
  simp [ppmStep_cost_eq, ppmStep_map_apply, totalFreq_ppmStep, totalFreq_ppmInit,
    ppmInit_map_apply, ppmInit_cost, ctxTail, symCost_one_one]

/-- C3 amended: `ppm_compress` never divides by zero — including at
positions 0, 1, 2 where the context is shorter than 3 bytes or empty:
every denominator `total_freq` it uses is the sum of the per-context
counts taken after the current symbol's count was incremented, hence
strictly positive. The accumulated cost is a finite natural number, but it
is only non-negative, not strictly positive (see the counterexample). -/
theorem ppm_compress_denominators_pos (data : List Byte) (d : Nat)
    (hd : d ∈ ppmDenoms data) : 0 < d := by
  suffices h : ∀ (rest : List Byte) (s : PpmState) (prev : List Byte) (x : Nat),
      x ∈ ppmGoDenoms s prev rest → 0 < x from h data ppmInit [] d hd
  intro rest
  induction rest with
  | nil =>
    intro s prev x hx
    simp [ppmGoDenoms] at hx
  | cons v vs ih =>
    intro s prev x hx
    rw [ppmGoDenoms, List.mem_cons] at hx
    rcases hx with hx | hx
    · rw [hx, totalFreq_ppmStep]
      simp
    · exact ih _ _ _ hx

/-- Witness for the amended C3 theorem: on input `[0]` the single division
performed uses denominator 1, which is positive. -/
theorem ppm_compress_denominators_pos_witness :
    (1 : Nat) ∈ ppmDenoms [(0 : Byte)] ∧ 0 < (1 : Nat) := by
  have hm : (1 : Nat) ∈ ppmDenoms [(0 : Byte)] := by
    show (1 : Nat) ∈ ppmGoDenoms ppmInit [] [0]
    rw [ppmGoDenoms, totalFreq_ppmStep, totalFreq_ppmInit]
    simp
  exact ⟨hm, ppm_compress_denominators_pos [0] 1 hm⟩

/-! ## Claim C5 (Run-Length Size Simulator, modelled from the spec) -/

theorem runCount_replicate_succ (n : Nat) (v : Byte) :
    runCount (List.replicate (n + 1) v) = 1 := by
  induction n with
  | zero => rfl
  | succ m ih =>
    show runCount (v :: List.replicate (m + 1) v) = 1
    rw [List.replicate_succ]
    show (if v = v then 0 else 1) + runCount (v :: List.replicate m v) = 1
    rw [if_pos rfl, ← List.replicate_succ, ih]

/-- C5: the Run-Length Size Simulator (modelled from the spec, no source
implementation exists under src/) fails explicitly on the empty sequence
(`none`), returns 2 output units per maximal run of equal consecutive
bytes for every non-empty sequence, and in particular returns exactly 2 on
any sequence of `n > 0` identical bytes regardless of the run length. -/
theorem rle_size_spec (data : List Byte) (v : Byte) (n : Nat) :
    rle_size ([] : List Byte) = none ∧
      (data ≠ [] → rle_size data = some (2 * runCount data)) ∧
      (0 < n → rle_size (List.replicate n v) = some 2) := by
  refine ⟨rfl, fun hne => ?_, fun hn => ?_⟩
  · cases data with
    | nil => exact absurd rfl hne
    | cons d ds => rfl
  · cases n with
    | zero => exact absurd hn (by simp)
    | succ m =>
      rw [List.replicate_succ]
      show some (2 * runCount (v :: List.replicate m v)) = some 2
      rw [← List.replicate_succ, runCount_replicate_succ]

/-- Witness for C5 at the concrete inputs `[0]` and a run of 100 zeros. -/
theorem rle_size_spec_witness :
    rle_size ([] : List Byte) = none ∧
      ([(0 : Byte)] ≠ [] ∧ rle_size [(0 : Byte)] = some (2 * runCount [(0 : Byte)])) ∧
      (0 < 100 ∧ rle_size (List.replicate 100 (0 : Byte)) = some 2) := by
  obtain ⟨h1, h2, h3⟩ := rle_size_spec [(0 : Byte)] 0 100
  exact ⟨h1, ⟨by simp, h2 (by simp)⟩, ⟨by norm_num, h3 (by norm_num)⟩⟩

/-! ## Claim C9 -/

theorem split_foldl (l : List Pixel) :
    ∀ (x y z : List Byte),
      l.foldl (fun acc p => (acc.1 ++ [p.r], acc.2.1 ++ [p.g], acc.2.2 ++ [p.b])) (x, y, z) =
        (x ++ l.map Pixel.r, y ++ l.map Pixel.g, z ++ l.map Pixel.b) := by
  induction l with
  | nil =>
    intro x y z
    simp
  | cons p ps ih =>
    intro x y z
    simp only [List.foldl_cons, List.map_cons]
    rw [ih]
    simp

/-- C9: `split_rgb_channels` returns exactly three byte sequences which
are the red, green and blue projections of the pixel sequence in scan
order (so the i-th element of each is the corresponding sample of the i-th
pixel), each of length equal to the number of pixels (width × height for a
decoded image); the alpha sample is never consulted. -/
theorem split_rgb_channels_spec (pixels : List Pixel) :
    (split_rgb_channels pixels).1 = pixels.map Pixel.r ∧
      (split_rgb_channels pixels).2.1 = pixels.map Pixel.g ∧
      (split_rgb_channels pixels).2.2 = pixels.map Pixel.b ∧
      (split_rgb_channels pixels).1.length = pixels.length ∧
      (split_rgb_channels pixels).2.1.length = pixels.length ∧
      (split_rgb_channels pixels).2.2.length = pixels.length := by
  unfold split_rgb_channels
  rw [split_foldl]
  simp

/-! ## Claim C2 (corrected) -/

/-- C2 counterexample: the claim requires `calculate_entropy` to signal an
EmptyChannelError on a zero-length channel and never silently return 0.
The source has no error path at all (the return type is a plain number):
on the empty input the histogram is empty, the sum has no terms, and the
function silently returns 0. -/
theorem calculate_entropy_empty_counterexample :
    calculate_entropy ([] : List Byte) = 0 := by
  unfold calculate_entropy
  simp

/-- C2 amended: on a zero-length channel `calculate_entropy` signals no
error; it silently returns exactly 0 (the empty histogram contributes no
terms to the sum). -/
theorem calculate_entropy_empty_eq_zero (data : List Byte) (h : data.length = 0) :
    calculate_entropy data = 0 := by
  rw [List.length_eq_zero.mp h]
  unfold calculate_entropy
  simp

/-- Witness for the amended C2 theorem at the empty list. -/
theorem calculate_entropy_empty_witness :
    List.length ([] : List Byte) = 0 ∧ calculate_entropy ([] : List Byte) = 0 :=
  ⟨rfl, calculate_entropy_empty_eq_zero [] rfl⟩

/-! ## Claim C7 -/

/-- C7: `calculate_entropy` is invariant under permutation of its input:
it depends only on the length and the per-value occurrence counts, and
both are preserved by permutations. -/
theorem calculate_entropy_perm_invariant (d₁ d₂ : List Byte) (h : d₁.Perm d₂) :
    calculate_entropy d₁ = calculate_entropy d₂ := by
  unfold calculate_entropy
  rw [h.length_eq]
  exact Finset.sum_congr rfl fun b _ => by rw [h.count_eq]

/-- Witness for C7 at the concrete permutation `[0, 1] ~ [1, 0]`. -/
theorem calculate_entropy_perm_witness :
    ([(0 : Byte), 1].Perm [1, 0]) ∧
      calculate_entropy [(0 : Byte), 1] = calculate_entropy [1, 0] := by
  have h : [(0 : Byte), 1].Perm [1, 0] := by decide
  exact ⟨h, calculate_entropy_perm_invariant _ _ h⟩

/-! ## Claim C4 -/

theorem reconcile_eq (redE greenE blueE pixels fileSize : ℚ) :
    reconcile redE greenE blueE pixels fileSize =
      if fileSize < (redE + greenE + blueE) * pixels / 8 then
        ⟨fileSize, (1 - fileSize / fileSize) * 100, true⟩
      else
        ⟨(redE + greenE + blueE) * pixels / 8,
          (1 - (redE + greenE + blueE) * pixels / 8 / fileSize) * 100, false⟩ := by
  unfold reconcile
  by_cases h : fileSize < (redE + greenE + blueE) * pixels / 8
  · simp [h, lt_irrefl]
  · simp [h]

/-- C4: given non-negative channel entropies, a non-negative pixel count
and a positive original file size (as the pipeline guarantees), the
Reconciler returns a theoretical size clamped to at most the original file
size, emits the advisory "model not effective" message exactly when the
raw estimate `total_entropy * total_pixel_count / 8` exceeds the file
size, and the compression percentage lies in [0, 100], equalling 0 when
clamped and `(1 - theoretical_size / original_file_size) * 100`
otherwise. -/
theorem reconcile_spec (redE greenE blueE pixels fileSize : ℚ)
    (hr : 0 ≤ redE) (hg : 0 ≤ greenE) (hb : 0 ≤ blueE)
    (hp : 0 ≤ pixels) (hf : 0 < fileSize) :
    (reconcile redE greenE blueE pixels fileSize).theoretical_size ≤ fileSize ∧
      0 ≤ (reconcile redE greenE blueE pixels fileSize).compression_percentage ∧
      (reconcile redE greenE blueE pixels fileSize).compression_percentage ≤ 100 ∧
      ((reconcile redE greenE blueE pixels fileSize).modelNotEffective = true →
        (reconcile redE greenE blueE pixels fileSize).compression_percentage = 0) ∧
      ((reconcile redE greenE blueE pixels fileSize).modelNotEffective = false →
        (reconcile redE greenE blueE pixels fileSize).compression_percentage =
          (1 - (reconcile redE greenE blueE pixels fileSize).theoretical_size / fileSize)
            * 100) := by
  have hraw : 0 ≤ (redE + greenE + blueE) * pixels / 8 := by positivity
  rw [reconcile_eq]
  by_cases h : fileSize < (redE + greenE + blueE) * pixels / 8
  · rw [if_pos h]
    rw [div_self hf.ne']
    norm_num
  · rw [if_neg h]
    have hle : (redE + greenE + blueE) * pixels / 8 ≤ fileSize := not_lt.mp h
    have hq0 : 0 ≤ (redE + greenE + blueE) * pixels / 8 / fileSize :=
      div_nonneg hraw hf.le
    have hq1 : (redE + greenE + blueE) * pixels / 8 / fileSize ≤ 1 :=
      (div_le_one hf).mpr hle
    refine ⟨hle, by nlinarith, by nlinarith, by simp, fun _ => rfl⟩

/-- Witness for C4 at the concrete inputs: entropies 1, 1, 1, pixel count
8, file size 100 (raw estimate 3, no clamp). -/
theorem reconcile_spec_witness :
    (0 : ℚ) < 100 ∧
      (reconcile 1 1 1 8 100).theoretical_size ≤ 100 ∧
      0 ≤ (reconcile 1 1 1 8 100).compression_percentage ∧
      (reconcile 1 1 1 8 100).compression_percentage ≤ 100 := by
  have h := reconcile_spec 1 1 1 8 100 (by norm_num) (by norm_num) (by norm_num)
    (by norm_num) (by norm_num)
  exact ⟨by norm_num, h.1, h.2.1, h.2.2.1⟩

/-! ## Claim C6 and helper lemmas about `calculate_entropy` -/

theorem sum_count_univ (data : List Byte) :
    ∑ b : Byte, data.count b = data.length := by
  induction data with
  | nil => simp
  | cons a l ih =>
    have h1 : (∑ b : Byte, if a == b then 1 else 0) = 1 := by
      simp [beq_iff_eq, Finset.sum_ite_eq]
    simp only [List.count_cons, List.length_cons]
    rw [Finset.sum_add_distrib, ih, h1]

theorem calculate_entropy_eq (data : List Byte) :
    calculate_entropy data =
      (∑ b : Byte, Real.negMulLog ((data.count b : ℝ) / (data.length : ℝ))) /
        Real.log 2 := by
  unfold calculate_entropy
  rw [Finset.sum_div]
  refine Finset.sum_congr rfl fun b _ => ?_
  by_cases h : data.count b = 0
  · simp [h]
  · rw [if_neg h]
    simp only [Real.negMulLog, Real.logb]
    ring

theorem calculate_entropy_nonneg (data : List Byte) : 0 ≤ calculate_entropy data := by
  unfold calculate_entropy
  refine Finset.sum_nonneg fun b _ => ?_
  by_cases h : data.count b = 0
  · simp [h]
  · rw [if_neg h]
    have hp0 : 0 ≤ (data.count b : ℝ) / (data.length : ℝ) := by positivity
    have hp1 : (data.count b : ℝ) / (data.length : ℝ) ≤ 1 := by
      apply div_le_one_of_le₀
      · exact_mod_cast List.count_le_length b data
      · positivity
    have hlog : Real.logb 2 ((data.count b : ℝ) / (data.length : ℝ)) ≤ 0 :=
      Real.logb_nonpos (by norm_num) hp0 hp1
    nlinarith [mul_nonneg hp0 (neg_nonneg.mpr hlog)]

theorem calculate_entropy_le_eight (data : List Byte) (hne : data ≠ []) :
    calculate_entropy data ≤ 8 := by
  have hN : 0 < data.length := List.length_pos.mpr hne
  have hNR : (0 : ℝ) < (data.length : ℝ) := by exact_mod_cast hN
  have hp0 : ∀ b : Byte, 0 ≤ (data.count b : ℝ) / (data.length : ℝ) :=
    fun b => by positivity
  have hpsum : ∑ b : Byte, (data.count b : ℝ) / (data.length : ℝ) = 1 := by
    rw [← Finset.sum_div]
    have hc : ∑ b : Byte, (data.count b : ℝ) = (data.length : ℝ) := by
      exact_mod_cast congrArg (Nat.cast : ℕ → ℝ) (sum_count_univ data)
    rw [hc, div_self hNR.ne']
  have h₀ : ∀ b ∈ (Finset.univ : Finset Byte), 0 ≤ (fun _ : Byte => (256 : ℝ)⁻¹) b :=
    fun _ _ => by norm_num
  have h₁ : ∑ b ∈ (Finset.univ : Finset Byte), (fun _ : Byte => (256 : ℝ)⁻¹) b = 1 := by
    simp only [Finset.sum_const, Finset.card_univ, Fintype.card_fin, nsmul_eq_mul]
    norm_num
  have hmem : ∀ b ∈ (Finset.univ : Finset Byte),
      (fun b : Byte => (data.count b : ℝ) / (data.length : ℝ)) b ∈ Set.Ici (0 : ℝ) :=
    fun b _ => hp0 b
  have hjen := Real.concaveOn_negMulLog.le_map_sum h₀ h₁ hmem
  simp only [smul_eq_mul] at hjen
  rw [← Finset.mul_sum, ← Finset.mul_sum, hpsum, mul_one] at hjen
  have hnm : Real.negMulLog ((256 : ℝ)⁻¹) = (256 : ℝ)⁻¹ * Real.log 256 := by
    simp only [Real.negMulLog]
    rw [Real.log_inv]
    ring
  rw [hnm] at hjen
  have hS : (∑ b : Byte, Real.negMulLog ((data.count b : ℝ) / (data.length : ℝ)))
      ≤ Real.log 256 :=
    le_of_mul_le_mul_left hjen (by norm_num)
  rw [calculate_entropy_eq]
  have hlog2 : (0 : ℝ) < Real.log 2 := Real.log_pos (by norm_num)
  have h256log : Real.log 256 = 8 * Real.log 2 := by
    rw [show (256 : ℝ) = 2 ^ (8 : ℕ) by norm_num, Real.log_pow]
    norm_num
  rw [h256log] at hS
  have hdiv := (div_le_div_iff_of_pos_right hlog2).mpr hS
  have h8 : (8 * Real.log 2) / Real.log 2 = 8 := by
    rw [mul_div_assoc, div_self hlog2.ne', mul_one]
  rw [h8] at hdiv
  exact hdiv

theorem calculate_entropy_replicate (n : Nat) (v : Byte) :
    calculate_entropy (List.replicate (n + 1) v) = 0 := by
  unfold calculate_entropy
  refine Finset.sum_eq_zero fun b _ => ?_
  by_cases h : b = v
  · subst h
    rw [List.count_replicate_self, List.length_replicate, if_neg (Nat.succ_ne_zero n),
      div_self (Nat.cast_ne_zero.mpr (Nat.succ_ne_zero n))]
    simp
  · simp [List.count_replicate, beq_iff_eq, Ne.symm h]

/-- C6: for every non-empty byte sequence, `calculate_entropy` returns a
value in [0, 8] bits per symbol, and on a sequence consisting of a single
repeated byte value (i.e. equal to `List.replicate` of its length) it
returns exactly 0. -/
theorem calculate_entropy_bounds (data : List Byte) (hne : data ≠ []) :
    (0 ≤ calculate_entropy data ∧ calculate_entropy data ≤ 8) ∧
      ∀ v : Byte, data = List.replicate data.length v → calculate_entropy data = 0 := by
  refine ⟨⟨calculate_entropy_nonneg data, calculate_entropy_le_eight data hne⟩,
    fun v hv => ?_⟩
  obtain ⟨m, hm⟩ := Nat.exists_eq_succ_of_ne_zero
    (fun h0 => hne (List.length_eq_zero.mp h0))
  rw [hv, hm]
  exact calculate_entropy_replicate m v

/-- Witness for C6 at the concrete one-byte input `[0]`, which is a
repetition of the single value 0. -/
theorem calculate_entropy_bounds_witness :
    [(0 : Byte)] ≠ [] ∧
      (0 ≤ calculate_entropy [(0 : Byte)] ∧ calculate_entropy [(0 : Byte)] ≤ 8) ∧
      calculate_entropy [(0 : Byte)] = 0 := by
  have hne : [(0 : Byte)] ≠ [] := by simp
  exact ⟨hne, (calculate_entropy_bounds [0] hne).1,
    (calculate_entropy_bounds [0] hne).2 0 rfl⟩

end Pictropy
